import Mathlib

/-!
Verification of the financial comparison core of the `horizon` repository.

The TypeScript source is embedded shallowly: machine floating-point numbers
are modeled as exact rationals (`ℚ`), day counts as integers (`ℤ`) where they
enter an exponent, JS `null`/`undefined` as `Option`, and the IEEE value
`Infinity` returned by `breakevenTnaToBeatMp` as the top element of
`WithTop ℚ`.  Definitions come first, theorems afterwards.
-/

namespace Horizon

/-! ### Definitions: `src/lib/finance.ts` -/

/-- `FeeConfig` from `src/lib/finance.ts`. -/
structure FeeConfig where
  brokerCommissionPct : ℚ
  ivaPct : ℚ
  otherCostsPct : ℚ
deriving DecidableEq

/-- `effectiveCostRate` from `src/lib/finance.ts`:
`broker/100 * (1 + iva/100) + other/100`. -/
def effectiveCostRate (cfg : FeeConfig) : ℚ :=
  (cfg.brokerCommissionPct / 100) * (1 + cfg.ivaPct / 100) + cfg.otherCostsPct / 100

/-- `grossInterest` from `src/lib/finance.ts`: simple interest
`capital * (tnaPct/100) * (days/baseDays)`. -/
def grossInterest (capital : ℚ) (days : ℤ) (tnaPct : ℚ) (baseDays : ℚ) : ℚ :=
  capital * (tnaPct / 100) * ((days : ℚ) / baseDays)

/-- Result record of `netCaucionProfit`. -/
structure CaucionProfit where
  gross : ℚ
  cost : ℚ
  net : ℚ
deriving DecidableEq

/-- `netCaucionProfit` from `src/lib/finance.ts`: gross simple interest,
a flat cost `capital * effectiveCostRate`, and `net = gross - cost`. -/
def netCaucionProfit (capital : ℚ) (days : ℤ) (tnaPct : ℚ) (feeCfg : FeeConfig)
    (baseDays : ℚ) : CaucionProfit :=
  { gross := grossInterest capital days tnaPct baseDays
    cost := capital * effectiveCostRate feeCfg
    net := grossInterest capital days tnaPct baseDays - capital * effectiveCostRate feeCfg }

/-- Result record of `mpProfitCompound`. -/
structure MpProfit where
  gain : ℚ
  final : ℚ
deriving DecidableEq

/-- `mpProfitCompound` from `src/lib/finance.ts`: daily compounding at
`rDaily = (mpTnaPct/100)/baseDays` over `Math.max(0, days)` days. -/
def mpProfitCompound (capital : ℚ) (days : ℤ) (mpTnaPct : ℚ) (baseDays : ℚ) : MpProfit :=
  { gain := capital * (1 + (mpTnaPct / 100) / baseDays) ^ (max 0 days).toNat - capital
    final := capital * (1 + (mpTnaPct / 100) / baseDays) ^ (max 0 days).toNat }

/-- The finite branch of `breakevenTnaToBeatMp` from `src/lib/finance.ts`:
`tna = mpTnaPct + 100*costRate/frac + 100*extraMinProfit/(capital*frac)`
with `frac = days/baseDays`. -/
def breakevenTnaFinite (capital : ℚ) (days : ℤ) (mpTnaPct : ℚ) (feeCfg : FeeConfig)
    (extraMinProfit : ℚ) (baseDays : ℚ) : ℚ :=
  mpTnaPct + (100 * effectiveCostRate feeCfg) / ((days : ℚ) / baseDays) +
    (100 * extraMinProfit) / (capital * ((days : ℚ) / baseDays))

/-- `breakevenTnaToBeatMp` from `src/lib/finance.ts`; the JS `Infinity`
returned when `frac <= 0` is modeled as `⊤ : WithTop ℚ`. -/
def breakevenTnaToBeatMp (capital : ℚ) (days : ℤ) (mpTnaPct : ℚ) (feeCfg : FeeConfig)
    (extraMinProfit : ℚ) (baseDays : ℚ) : WithTop ℚ :=
  if (days : ℚ) / baseDays ≤ 0 then ⊤
  else (breakevenTnaFinite capital days mpTnaPct feeCfg extraMinProfit baseDays : WithTop ℚ)

/-! ### Definitions: `src/lib/byma.ts` -/

/-- `BymaCaucionRow` from `src/lib/byma.ts`; every field is optional in the
feed, so each is an `Option`. -/
structure BymaCaucionRow where
  denominationCcy : Option String
  daysToMaturity : Option ℚ
  maturityDate : Option String
  settlementPrice : Option ℚ
  tradedQty : Option ℚ
deriving DecidableEq

/-- `Number(x.settlementPrice ?? 0)` as used inside `bestOffersByDays`:
a missing rate is coerced to 0 for comparison. -/
def offerRate (x : BymaCaucionRow) : ℚ :=
  x.settlementPrice.getD 0

/-- The JS object update `best[d] = x` on the accumulator of
`bestOffersByDays`, together with its guard
`!best[d] || rate > Number(best[d].settlementPrice ?? 0)`:
replace the entry for key `d` when the new rate is strictly higher,
append a fresh entry when the key is absent. -/
def insertBest : List (ℚ × BymaCaucionRow) → ℚ → BymaCaucionRow → List (ℚ × BymaCaucionRow)
  | [], d, x => [(d, x)]
  | (d0, x0) :: rest, d, x =>
    if d0 = d then
      (if offerRate x0 < offerRate x then (d0, x) :: rest else (d0, x0) :: rest)
    else (d0, x0) :: insertBest rest d x

/-- One iteration of the `for` loop of `bestOffersByDays`: skip rows whose
`daysToMaturity` is missing (`Number(undefined)` is `NaN`, not finite) or
outside `[1, 30]`; otherwise update the per-day best entry. -/
def bestStep (best : List (ℚ × BymaCaucionRow)) (x : BymaCaucionRow) :
    List (ℚ × BymaCaucionRow) :=
  match x.daysToMaturity with
  | none => best
  | some d => if d < 1 ∨ 30 < d then best else insertBest best d x

/-- `bestOffersByDays` from `src/lib/byma.ts`: filter rows to the requested
currency, then fold the best-offer update over them.  The JS `Record` result
is modeled as an association list with distinct keys. -/
def bestOffersByDays (rows : List BymaCaucionRow) (ccy : String) :
    List (ℚ × BymaCaucionRow) :=
  (rows.filter (fun x => x.denominationCcy == some ccy)).foldl bestStep []

/-- Key lookup in the association-list model of the `Record` accumulator. -/
def lookupBest : List (ℚ × BymaCaucionRow) → ℚ → Option BymaCaucionRow
  | [], _ => none
  | p :: rest, d => if p.1 = d then some p.2 else lookupBest rest d

/-- The per-bucket best-offer recursion, read off the loop of
`bestOffersByDays` restricted to one day bucket: keep the current best and
replace it only on a strictly higher rate. -/
def runBucket (acc : Option BymaCaucionRow) : List BymaCaucionRow → Option BymaCaucionRow
  | [] => acc
  | x :: xs =>
    runBucket
      (match acc with
       | none => some x
       | some y => if offerRate y < offerRate x then some x else some y) xs

/-- An in-range offer whose day count is not an integer (a day-and-a-half
maturity), used as the counterexample input for bucket filtering. -/
def nonIntOffer : BymaCaucionRow :=
  ⟨some "ARS", some (3/2), none, some 30, none⟩

/-- Offer for bucket 7 quoting a 30.0 rate (spec's day-bucket scenario). -/
def offerRate30 : BymaCaucionRow :=
  ⟨some "ARS", some 7, some "2026-01-06", some 30, some 100⟩

/-- Offer for bucket 7 quoting a 35.0 rate (spec's day-bucket scenario). -/
def offerRate35 : BymaCaucionRow :=
  ⟨some "ARS", some 7, some "2026-01-06", some 35, some 50⟩

/-! ### Definitions: `src/lib/number.ts` -/

/-- The character class kept by `raw.replace(/[^\d.,]/g, "")`. -/
def isLocaleNumChar (c : Char) : Bool :=
  c.isDigit || c == '.' || c == ','

/-- JS `cleaned.replace(",", ".")`: replace only the first comma. -/
def replaceFirstComma : List Char → List Char
  | [] => []
  | c :: cs => if c = ',' then '.' :: cs else c :: replaceFirstComma cs

/-- Numeric value of a digit string. -/
def digitsVal (l : List Char) : ℕ :=
  l.foldl (fun n c => 10 * n + (c.toNat - '0'.toNat)) 0

/-- Split at the first `'.'`: integer digits and fractional digits. -/
def splitDot : List Char → List Char × List Char
  | [] => ([], [])
  | c :: cs =>
    if c = '.' then ([], cs)
    else
      let p := splitDot cs
      (c :: p.1, p.2)

/-- Models the JS `Number(...)` conversion restricted to strings over the
characters `0-9`, `.` and `,` — the only strings it receives inside
`parseLocaleNumber` after cleaning.  A string still containing a comma, or
containing more than one dot, or equal to `"."`, is not a numeric literal and
converts to `NaN`, modeled as `none`; the empty string converts to `0`. -/
def jsNumberOfCleaned (l : List Char) : Option ℚ :=
  if l.count ',' ≠ 0 then none
  else if 2 ≤ l.count '.' then none
  else if l.isEmpty then some 0
  else if l = ['.'] then none
  else some ((digitsVal (splitDot l).1 : ℚ) +
    (digitsVal (splitDot l).2 : ℚ) / 10 ^ (splitDot l).2.length)

/-- `parseLocaleNumber` from `src/lib/number.ts`: strip everything but
digits, `.` and `,`; turn the first comma into a dot; convert with `Number`;
return `null` when not finite, else clamp to non-negative. -/
def parseLocaleNumber (raw : String) : Option ℚ :=
  (jsNumberOfCleaned (replaceFirstComma (raw.data.filter isLocaleNumChar))).map
    (fun n => max 0 n)

/-! ### Definitions: field resolution (`normalizeKey` / `pickField`, `src/App.tsx`) -/

/-- JS `toLowerCase` restricted to the ASCII and Spanish accented range the
table headers use. -/
def jsToLowerChar (c : Char) : Char :=
  if c = 'Á' then 'á'
  else if c = 'É' then 'é'
  else if c = 'Í' then 'í'
  else if c = 'Ó' then 'ó'
  else if c = 'Ú' then 'ú'
  else if c = 'Ü' then 'ü'
  else if c = 'Ñ' then 'ñ'
  else c.toLower

/-- The JS `\s` class (ASCII part). -/
def isJsSpace (c : Char) : Bool :=
  c == ' ' || c == '\t' || c == '\n' || c == '\r' || c == '\x0b' || c == '\x0c'

/-- `.replace(/\s+/g, " ")`: collapse every whitespace run to one space. -/
def collapseWs : List Char → List Char
  | [] => []
  | c :: cs =>
    if isJsSpace c then ' ' :: collapseWs (cs.dropWhile isJsSpace)
    else c :: collapseWs cs
termination_by l => l.length
decreasing_by
  · have hle : (cs.dropWhile isJsSpace).length ≤ cs.length := by
      induction cs with
      | nil => simp
      | cons c cs ih =>
        rw [List.dropWhile_cons]
        split
        · exact Nat.le_trans ih (Nat.le_succ _)
        · simp
    simp only [List.length_cons]
    omega
  · simp

/-- The character class kept by `.replace(/[^\wñáéíóúü %/.$()-]+/g, "")`
(JS `\w` is `[A-Za-z0-9_]`). -/
def isKeptChar (c : Char) : Bool :=
  ('a' ≤ c && c ≤ 'z') || ('A' ≤ c && c ≤ 'Z') || c.isDigit || c == '_' ||
    c == 'ñ' || c == 'á' || c == 'é' || c == 'í' || c == 'ó' || c == 'ú' || c == 'ü' ||
    c == ' ' || c == '%' || c == '/' || c == '.' || c == '$' || c == '(' || c == ')' ||
    c == '-'

/-- `.trim()` on both ends. -/
def trimWs (l : List Char) : List Char :=
  ((l.dropWhile isJsSpace).reverse.dropWhile isJsSpace).reverse

/-- `normalizeKey` from `src/App.tsx`: lowercase, collapse whitespace, strip
characters outside the permitted set, trim. -/
def normalizeKey (s : String) : String :=
  ⟨trimWs ((collapseWs (s.data.map jsToLowerChar)).filter isKeptChar)⟩

/-- Whether `t` occurs as a contiguous substring of `s` (JS `s.includes(t)`),
on the character-list level. -/
def includesAux (t : List Char) : List Char → Bool
  | [] => t.isEmpty
  | c :: cs => t.isPrefixOf (c :: cs) || includesAux t cs

/-- JS `s.includes(t)`. -/
def strIncludes (s t : String) : Bool :=
  includesAux t.data s.data

/-- `pickField` from `src/App.tsx`: a row is the ordered list of its
key/value pairs (`Object.keys` order).  Pass 1 scans the candidates for an
exact normalized-key match; pass 2 for a containment match; otherwise the
empty string. -/
def pickField (row : List (String × String)) (wanted : List String) : String :=
  let norm := row.map (fun kv => (kv, normalizeKey kv.1))
  let targets := wanted.map normalizeKey
  match targets.findSome?
      (fun t => (norm.find? (fun x => x.2 == t)).map (fun x => x.1.2)) with
  | some v => v
  | none =>
    match targets.findSome?
        (fun t => (norm.find? (fun x => strIncludes x.2 t || strIncludes t x.2)).map
          (fun x => x.1.2)) with
    | some v => v
    | none => ""

/-- Pass 1 of field resolution phrased as the spec states it: the row value
of the first candidate whose normalized form exactly equals a normalized row
key. -/
def exactResolve (row : List (String × String)) (wanted : List String) : Option String :=
  wanted.findSome? (fun w =>
    (row.find? (fun kv => normalizeKey kv.1 == normalizeKey w)).map (fun kv => kv.2))

/-- Pass 2 of field resolution phrased as the spec states it: the row value
of the first candidate whose normalized form is contained in a normalized row
key or vice versa. -/
def fuzzyResolve (row : List (String × String)) (wanted : List String) : Option String :=
  wanted.findSome? (fun w =>
    (row.find? (fun kv => strIncludes (normalizeKey kv.1) (normalizeKey w) ||
      strIncludes (normalizeKey w) (normalizeKey kv.1))).map (fun kv => kv.2))

/-! ### Definitions: hurdle table and LECAP sizing (`src/App.tsx`) -/

/-- `clampNonNeg` from `src/App.tsx` (on finite inputs). -/
def clampNonNeg (n : ℚ) : ℚ := max 0 n

/-- `MIN_PROFIT_TABLE` from `src/App.tsx`. -/
def MIN_PROFIT_TABLE : List (ℚ × ℚ) :=
  [(7, 4/10), (14, 5/10), (30, 7/10), (60, 12/10), (90, 18/10), (180, 25/10), (365, 4)]

/-- The `for`/`break` loop body of `minProfitPctForDays`: walk the table in
order, adopting each tier percentage whose threshold the day count reaches,
and stop at the first tier it does not reach. -/
def minProfitLoop (days pct : ℚ) : List (ℚ × ℚ) → ℚ
  | [] => pct
  | row :: rest => if row.1 ≤ days then minProfitLoop days row.2 rest else pct

/-- `minProfitPctForDays` from `src/App.tsx` (finite `days`). -/
def minProfitPctForDays (days : ℚ) : ℚ :=
  if days ≤ 0 then MIN_PROFIT_TABLE.headI.2
  else minProfitLoop days MIN_PROFIT_TABLE.headI.2 MIN_PROFIT_TABLE

/-- JS `Math.round`: round half toward positive infinity. -/
def jsRound (x : ℚ) : ℤ := ⌊x + 1/2⌋

/-- `calcAutoExtraMinProfit` from `src/App.tsx` (finite `capital`):
`Math.round(max(0, capital) * (pct/100))`. -/
def calcAutoExtraMinProfit (capital days : ℚ) : ℤ :=
  jsRound (max 0 capital * (minProfitPctForDays days / 100))

/-- The tier percentage as the claim states it: the percentage of the largest
table threshold not exceeding `days`, defaulting to 0.4 below the first
tier (hence also for `days ≤ 0`). -/
def minProfitPctSpec (days : ℚ) : ℚ :=
  if 365 ≤ days then 4
  else if 180 ≤ days then 25/10
  else if 90 ≤ days then 18/10
  else if 60 ≤ days then 12/10
  else if 30 ≤ days then 7/10
  else if 14 ≤ days then 5/10
  else if 7 ≤ days then 4/10
  else 4/10

/-- `qty` from the position-sizing block of `derivedLecaps` (`src/App.tsx`):
`precioConCom != null && precioConCom > 0 ? Math.floor(capital / precioConCom) : 0`. -/
def lecapQty (capital : ℚ) (precioConCom : Option ℚ) : ℤ :=
  match precioConCom with
  | some p => if 0 < p then ⌊capital / p⌋ else 0
  | none => 0

/-- `invested` from the position-sizing block of `derivedLecaps`:
`qty > 0 && precioConCom != null ? qty * precioConCom : 0`. -/
def lecapInvested (capital : ℚ) (precioConCom : Option ℚ) : ℚ :=
  if 0 < lecapQty capital precioConCom then
    match precioConCom with
    | some p => (lecapQty capital precioConCom : ℚ) * p
    | none => 0
  else 0

/-- `leftover` from the position-sizing block of `derivedLecaps`:
`Math.max(0, capital - invested)`. -/
def lecapLeftover (capital : ℚ) (precioConCom : Option ℚ) : ℚ :=
  max 0 (capital - lecapInvested capital precioConCom)

/-! ### Definitions: recommendation engine (`src/App.tsx`) -/

/-- The three instruments the recommendation block can name (its `type`
field: `"MM"`, `"CAUCION"`, `"LECAP"`). -/
inductive RecType
  | MM
  | CAUCION
  | LECAP
deriving DecidableEq

/-- The fields of `bestLecapForHorizon` that the recommendation block
reads. -/
structure LecapCandidate where
  ticker : String
  dias : Option ℚ
  horizonGainARS : Option ℚ
deriving DecidableEq

/-- Result of the recommendation block of `src/App.tsx`.  The
presentational `label`/`detail` strings are abstracted to the ticker and day
count they interpolate. -/
structure Recommendation where
  type : RecType
  supportTicker : Option String
  supportDias : Option ℚ
  caucExtra : ℚ
  lecExtra : Option ℚ
deriving DecidableEq

/-- The `recommendation` memo from `src/App.tsx`, with `mmGain = calc.mm.gain`,
`caucGain = calc.cauc.net` and `bestL = bestLecapForHorizon` passed in as the
projected gains the claim quantifies over.  The JS
`(lecGain ?? -Infinity) > caucGain` comparison is false when `lecGain` is
absent, since every finite `caucGain` exceeds `-Infinity`. -/
def recommendation (mmGain caucGain : ℚ) (bestL : Option LecapCandidate)
    (extraMinProfit : ℚ) : Recommendation :=
  let lecGain : Option ℚ := bestL.bind (fun b => b.horizonGainARS)
  let minExtra := clampNonNeg extraMinProfit
  let caucExtra := caucGain - mmGain
  let lecExtra : Option ℚ := lecGain.map (fun g => g - mmGain)
  let caucWorth : Bool := decide (minExtra ≤ caucExtra)
  let lecWorth : Bool :=
    match lecExtra with
    | some e => decide (minExtra ≤ e)
    | none => false
  if !caucWorth && !lecWorth then
    ⟨RecType.MM, none, none, caucExtra, lecExtra⟩
  else if caucWorth && !lecWorth then
    ⟨RecType.CAUCION, none, none, caucExtra, lecExtra⟩
  else if !caucWorth && lecWorth then
    ⟨RecType.LECAP, bestL.map (fun b => b.ticker), bestL.bind (fun b => b.dias),
      caucExtra, lecExtra⟩
  else if (match lecGain with | some g => decide (caucGain < g) | none => false) then
    ⟨RecType.LECAP, bestL.map (fun b => b.ticker), bestL.bind (fun b => b.dias),
      caucExtra, lecExtra⟩
  else
    ⟨RecType.CAUCION, none, none, caucExtra, lecExtra⟩

/-- A best eligible LECAP whose horizon-adjusted gain exactly ties the
caución net gain in the counterexample scenario. -/
def tieCandidate : LecapCandidate := ⟨"S31O5", some 14, some 10⟩

/-- A best eligible LECAP whose horizon-adjusted gain strictly beats the
caución net gain, used in the witness scenario. -/
def strictCandidate : LecapCandidate := ⟨"S31O5", some 14, some 20⟩

/-! ### Theorems -/

/-- C5: whenever `days/baseDays ≤ 0` (zero or negative horizon),
`breakevenTnaToBeatMp` returns the infinite value `⊤`, which compares
strictly larger than every finite rate. -/
theorem breakeven_degenerate_horizon_unattainable
    (capital mpTnaPct extraMinProfit baseDays : ℚ) (days : ℤ) (feeCfg : FeeConfig)
    (h : (days : ℚ) / baseDays ≤ 0) :
    breakevenTnaToBeatMp capital days mpTnaPct feeCfg extraMinProfit baseDays = ⊤ ∧
      ∀ q : ℚ, (q : WithTop ℚ) < ⊤ := by
  refine ⟨?_, fun q => WithTop.coe_lt_top q⟩
  simp only [breakevenTnaToBeatMp, if_pos h]

/-- Witness for C5 at `days = 0`. -/
theorem breakeven_degenerate_horizon_unattainable_witness :
    breakevenTnaToBeatMp 1000000 0 30 ⟨15/100, 21, 0⟩ 500 365 = ⊤ ∧
      ∀ q : ℚ, (q : WithTop ℚ) < ⊤ :=
  breakeven_degenerate_horizon_unattainable 1000000 30 500 365 0 ⟨15/100, 21, 0⟩ (by norm_num)

/-- C8: at non-negative capital, days and rate (and positive year basis),
the compounded final amount is at least the capital. -/
theorem mpProfitCompound_final_ge_capital
    (capital mpTnaPct baseDays : ℚ) (days : ℤ)
    (hc : 0 ≤ capital) (_hd : 0 ≤ days) (hr : 0 ≤ mpTnaPct) (hb : 0 < baseDays) :
    (mpProfitCompound capital days mpTnaPct baseDays).final ≥ capital := by
  have hr' : (0 : ℚ) ≤ (mpTnaPct / 100) / baseDays := by positivity
  have hpow : ∀ n : ℕ, (1 : ℚ) ≤ (1 + (mpTnaPct / 100) / baseDays) ^ n := by
    intro n
    induction n with
    | zero => simp
    | succ k ih =>
      rw [pow_succ]
      nlinarith
  have := mul_le_mul_of_nonneg_left (hpow (max 0 days).toNat) hc
  simpa [mpProfitCompound] using this

/-- Witness for C8 at the spec scenario (capital 1,000,000, 14 days, 22.1% TNA). -/
theorem mpProfitCompound_final_ge_capital_witness :
    (mpProfitCompound 1000000 14 (221/10) 365).final ≥ 1000000 :=
  mpProfitCompound_final_ge_capital 1000000 (221/10) 365 14
    (by norm_num) (by norm_num) (by norm_num) (by norm_num)

/-- C2 (amended): with `capital > 0`, `days > 0`, `baseDays > 0`, the breakeven
rate is finite, and feeding it back into `netCaucionProfit` makes the net gain
exceed the *simple-interest* reference gain `grossInterest(capital, days,
mpTnaPct, baseDays)` by exactly `extraMinProfit`.  (The code's breakeven
algebra inverts the simple-interest money-market gain, not the compound one.) -/
theorem breakeven_inverts_simple_mm_gain
    (capital mpTnaPct extraMinProfit baseDays : ℚ) (days : ℤ) (feeCfg : FeeConfig)
    (hc : 0 < capital) (hd : 0 < days) (hb : 0 < baseDays) :
    breakevenTnaToBeatMp capital days mpTnaPct feeCfg extraMinProfit baseDays =
      (breakevenTnaFinite capital days mpTnaPct feeCfg extraMinProfit baseDays : WithTop ℚ) ∧
    (netCaucionProfit capital days
        (breakevenTnaFinite capital days mpTnaPct feeCfg extraMinProfit baseDays)
        feeCfg baseDays).net -
      grossInterest capital days mpTnaPct baseDays = extraMinProfit := by
  have hdq : (0 : ℚ) < (days : ℚ) := by exact_mod_cast hd
  have hfrac : (0 : ℚ) < (days : ℚ) / baseDays := div_pos hdq hb
  constructor
  · simp only [breakevenTnaToBeatMp, if_neg (not_le.mpr hfrac)]
  · unfold netCaucionProfit breakevenTnaFinite grossInterest
    field_simp
    ring

/-- Witness for C2's amended theorem at the spec scenario inputs. -/
theorem breakeven_inverts_simple_mm_gain_witness :
    breakevenTnaToBeatMp 1000000 14 (221/10) ⟨15/100, 21, 0⟩ 500 365 =
      (breakevenTnaFinite 1000000 14 (221/10) ⟨15/100, 21, 0⟩ 500 365 : WithTop ℚ) ∧
    (netCaucionProfit 1000000 14
        (breakevenTnaFinite 1000000 14 (221/10) ⟨15/100, 21, 0⟩ 500 365)
        ⟨15/100, 21, 0⟩ 365).net -
      grossInterest 1000000 14 (221/10) 365 = 500 :=
  breakeven_inverts_simple_mm_gain 1000000 (221/10) 500 365 14 ⟨15/100, 21, 0⟩
    (by norm_num) (by norm_num) (by norm_num)

/-- C2 counterexample: at capital `10^10`, 2 days, reference TNA 36.5% (daily
rate exactly 0.001), zero fees and `extraMinProfit = 0`, feeding the breakeven
rate back yields `net - compoundGain = -10000`, not `0`: the discrepancy is the
simple-vs-compound gap, far beyond floating-point tolerance. -/
theorem breakeven_compound_gap_cex :
    (netCaucionProfit (10 ^ 10) 2
        (breakevenTnaFinite (10 ^ 10) 2 (365/10) ⟨0, 0, 0⟩ 0 365) ⟨0, 0, 0⟩ 365).net -
      (mpProfitCompound (10 ^ 10) 2 (365/10) 365).gain = -10000 := by
  have h2 : Int.toNat 2 = 2 := rfl
  norm_num [netCaucionProfit, breakevenTnaFinite, mpProfitCompound, grossInterest,
    effectiveCostRate, h2]

theorem mem_insertBest {best : List (ℚ × BymaCaucionRow)} {d : ℚ}
    {x : BymaCaucionRow} {p : ℚ × BymaCaucionRow}
    (h : p ∈ insertBest best d x) : p ∈ best ∨ p = (d, x) := by
  induction best with
  | nil =>
    simp only [insertBest, List.mem_singleton] at h
    exact Or.inr h
  | cons q rest ih =>
    obtain ⟨d0, x0⟩ := q
    simp only [insertBest] at h
    by_cases hd : d0 = d
    · rw [if_pos hd] at h
      by_cases hr : offerRate x0 < offerRate x
      · rw [if_pos hr] at h
        rcases List.mem_cons.mp h with h1 | h1
        · right; rw [h1, hd]
        · left; exact List.mem_cons_of_mem _ h1
      · rw [if_neg hr] at h
        exact Or.inl h
    · rw [if_neg hd] at h
      rcases List.mem_cons.mp h with h1 | h1
      · exact Or.inl (h1 ▸ List.mem_cons_self _ _)
      · rcases ih h1 with h2 | h2
        · exact Or.inl (List.mem_cons_of_mem _ h2)
        · exact Or.inr h2

theorem keys_insertBest (best : List (ℚ × BymaCaucionRow)) (d : ℚ) (x : BymaCaucionRow) :
    (insertBest best d x).map Prod.fst = best.map Prod.fst ∨
      (insertBest best d x).map Prod.fst = best.map Prod.fst ++ [d] ∧
        d ∉ best.map Prod.fst := by
  induction best with
  | nil => right; simp [insertBest]
  | cons q rest ih =>
    obtain ⟨d0, x0⟩ := q
    by_cases hd : d0 = d
    · left
      simp only [insertBest, if_pos hd]
      by_cases hr : offerRate x0 < offerRate x
      · rw [if_pos hr]; simp
      · rw [if_neg hr]
    · simp only [insertBest, if_neg hd]
      rcases ih with h | ⟨h1, h2⟩
      · left; simp [h]
      · right
        constructor
        · simp [h1]
        · simp only [List.map_cons, List.mem_cons]
          push_neg
          exact ⟨fun he => hd he.symm, h2⟩

theorem keys_nodup_insertBest {best : List (ℚ × BymaCaucionRow)} {d : ℚ}
    {x : BymaCaucionRow} (h : (best.map Prod.fst).Nodup) :
    ((insertBest best d x).map Prod.fst).Nodup := by
  rcases keys_insertBest best d x with he | ⟨he, hd⟩
  · rw [he]; exact h
  · rw [he]
    refine List.Nodup.append h (List.nodup_singleton d) ?_
    intro a ha hb
    simp only [List.mem_singleton] at hb
    exact hd (hb ▸ ha)

theorem lookupBest_insertBest_self (best : List (ℚ × BymaCaucionRow)) (d : ℚ)
    (x : BymaCaucionRow) :
    lookupBest (insertBest best d x) d =
      match lookupBest best d with
      | none => some x
      | some y => if offerRate y < offerRate x then some x else some y := by
  induction best with
  | nil => simp [insertBest, lookupBest]
  | cons q rest ih =>
    obtain ⟨d0, x0⟩ := q
    by_cases hd : d0 = d
    · subst hd
      by_cases hr : offerRate x0 < offerRate x
      · simp [insertBest, lookupBest, hr]
      · simp [insertBest, lookupBest, hr]
    · simp [insertBest, lookupBest, hd, ih]

theorem lookupBest_insertBest_ne (best : List (ℚ × BymaCaucionRow)) {d d' : ℚ}
    (x : BymaCaucionRow) (h : d ≠ d') :
    lookupBest (insertBest best d x) d' = lookupBest best d' := by
  induction best with
  | nil => simp [insertBest, lookupBest, h]
  | cons q rest ih =>
    obtain ⟨d0, x0⟩ := q
    by_cases hd : d0 = d
    · subst hd
      by_cases hr : offerRate x0 < offerRate x
      · simp [insertBest, lookupBest, hr, h]
      · simp [insertBest, lookupBest, hr, h]
    · simp [insertBest, lookupBest, hd, ih]

theorem lookupBest_foldl (l : List BymaCaucionRow) (b : List (ℚ × BymaCaucionRow))
    (d : ℚ) (h1 : 1 ≤ d) (h2 : d ≤ 30) :
    lookupBest (l.foldl bestStep b) d =
      runBucket (lookupBest b d) (l.filter (fun x => x.daysToMaturity == some d)) := by
  induction l generalizing b with
  | nil => simp [runBucket]
  | cons x l ih =>
    rw [List.foldl_cons, ih (bestStep b x)]
    rcases hx : x.daysToMaturity with _ | d'
    · simp only [bestStep, hx, List.filter_cons]
      simp [hx]
    · by_cases hdd : d' = d
      · subst hdd
        have hrange : ¬ (d' < 1 ∨ 30 < d') := by
          push_neg
          exact ⟨h1, h2⟩
        simp only [bestStep, hx, if_neg hrange, List.filter_cons]
        rw [lookupBest_insertBest_self]
        simp only [hx, beq_iff_eq, if_pos rfl]
        simp [runBucket]
      · simp only [bestStep, hx, List.filter_cons]
        by_cases hr : d' < 1 ∨ 30 < d'
        · rw [if_pos hr]
          simp [hdd]
        · rw [if_neg hr, lookupBest_insertBest_ne _ _ hdd]
          simp [hdd]

theorem lookupBest_of_mem {l : List (ℚ × BymaCaucionRow)} {d : ℚ} {x : BymaCaucionRow}
    (hnd : (l.map Prod.fst).Nodup) (hmem : (d, x) ∈ l) :
    lookupBest l d = some x := by
  induction l with
  | nil => cases hmem
  | cons q rest ih =>
    obtain ⟨d0, x0⟩ := q
    simp only [List.map_cons, List.nodup_cons] at hnd
    rcases List.mem_cons.mp hmem with h | h
    · injection h with h1 h2
      subst h1; subst h2
      simp [lookupBest]
    · by_cases hd : d0 = d
      · exfalso
        apply hnd.1
        subst hd
        exact List.mem_map.mpr ⟨(d0, x), h, rfl⟩
      · simp only [lookupBest, if_neg hd]
        exact ih hnd.2 h

theorem mem_foldl_bestStep {l : List BymaCaucionRow} {b : List (ℚ × BymaCaucionRow)}
    {p : ℚ × BymaCaucionRow} (h : p ∈ l.foldl bestStep b) :
    p ∈ b ∨ (p.2.daysToMaturity = some p.1 ∧ 1 ≤ p.1 ∧ p.1 ≤ 30 ∧ p.2 ∈ l) := by
  induction l generalizing b with
  | nil => exact Or.inl h
  | cons x l ih =>
    rw [List.foldl_cons] at h
    rcases ih h with hb | ⟨h1, h2, h3, h4⟩
    · rcases hx : x.daysToMaturity with _ | d'
      · simp only [bestStep, hx] at hb
        exact Or.inl hb
      · simp only [bestStep, hx] at hb
        by_cases hr : d' < 1 ∨ 30 < d'
        · rw [if_pos hr] at hb
          exact Or.inl hb
        · rw [if_neg hr] at hb
          rcases mem_insertBest hb with hb' | hb'
          · exact Or.inl hb'
          · right
            push_neg at hr
            subst hb'
            exact ⟨hx, hr.1, hr.2, List.mem_cons_self _ _⟩
    · exact Or.inr ⟨h1, h2, h3, List.mem_cons_of_mem _ h4⟩

theorem keys_nodup_foldl_bestStep {l : List BymaCaucionRow}
    {b : List (ℚ × BymaCaucionRow)} (h : (b.map Prod.fst).Nodup) :
    ((l.foldl bestStep b).map Prod.fst).Nodup := by
  induction l generalizing b with
  | nil => exact h
  | cons x l ih =>
    rw [List.foldl_cons]
    apply ih
    rcases hx : x.daysToMaturity with _ | d'
    · simp only [bestStep, hx]; exact h
    · simp only [bestStep, hx]
      by_cases hr : d' < 1 ∨ 30 < d'
      · rw [if_pos hr]; exact h
      · rw [if_neg hr]
        exact keys_nodup_insertBest h

theorem runBucket_spec {l : List BymaCaucionRow} {acc : Option BymaCaucionRow}
    {x : BymaCaucionRow} (h : runBucket acc l = some x) :
    (acc = some x ∧ ∀ y ∈ l, offerRate y ≤ offerRate x) ∨
      ∃ l1 l2, l = l1 ++ x :: l2 ∧
        (∀ a, acc = some a → offerRate a < offerRate x) ∧
        (∀ y ∈ l1, offerRate y < offerRate x) ∧
        (∀ y ∈ l2, offerRate y ≤ offerRate x) := by
  induction l generalizing acc with
  | nil => exact Or.inl ⟨h, by simp⟩
  | cons y l ih =>
    cases acc with
    | none =>
      simp only [runBucket] at h
      rcases ih h with ⟨ha, hall⟩ | ⟨l1, l2, hsplit, hacc, hl1, hl2⟩
      · injection ha with ha
        subst ha
        exact Or.inr ⟨[], l, by simp, by simp, by simp, hall⟩
      · have hy : offerRate y < offerRate x := hacc y rfl
        refine Or.inr ⟨y :: l1, l2, by simp [hsplit], by simp, ?_, hl2⟩
        intro z hz
        rcases List.mem_cons.mp hz with rfl | hz
        · exact hy
        · exact hl1 z hz
    | some a =>
      simp only [runBucket] at h
      by_cases hr : offerRate a < offerRate y
      · rw [if_pos hr] at h
        rcases ih h with ⟨ha, hall⟩ | ⟨l1, l2, hsplit, hacc, hl1, hl2⟩
        · injection ha with ha
          subst ha
          refine Or.inr ⟨[], l, by simp, ?_, by simp, hall⟩
          intro a0 ha0
          injection ha0 with ha0
          subst ha0
          exact hr
        · have hy : offerRate y < offerRate x := hacc y rfl
          refine Or.inr ⟨y :: l1, l2, by simp [hsplit], ?_, ?_, hl2⟩
          · intro a0 ha0
            injection ha0 with ha0
            subst ha0
            exact lt_trans hr hy
          · intro z hz
            rcases List.mem_cons.mp hz with rfl | hz
            · exact hy
            · exact hl1 z hz
      · rw [if_neg hr] at h
        push_neg at hr
        rcases ih h with ⟨ha, hall⟩ | ⟨l1, l2, hsplit, hacc, hl1, hl2⟩
        · injection ha with ha
          subst ha
          left
          refine ⟨rfl, ?_⟩
          intro z hz
          rcases List.mem_cons.mp hz with rfl | hz
          · exact hr
          · exact hall z hz
        · have hax : offerRate a < offerRate x := hacc a rfl
          refine Or.inr ⟨y :: l1, l2, by simp [hsplit], ?_, ?_, hl2⟩
          · intro a0 ha0
            injection ha0 with ha0
            subst ha0
            exact hax
          · intro z hz
            rcases List.mem_cons.mp hz with rfl | hz
            · exact lt_of_le_of_lt hr hax
            · exact hl1 z hz

/-- C4: every entry `(d, x)` of the best-offer map stores an offer of the
requested currency, whose `daysToMaturity` equals its bucket, whose
settlement rate (missing rates coerced to 0) is maximal among all offers of
that currency and day count, and which is the first offer in input order
among those attaining that maximal rate: every earlier candidate has a
strictly smaller rate. -/
theorem bestOffersByDays_entry_is_first_max
    (rows : List BymaCaucionRow) (ccy : String) (d : ℚ) (x : BymaCaucionRow)
    (hmem : (d, x) ∈ bestOffersByDays rows ccy) :
    x.denominationCcy = some ccy ∧ x.daysToMaturity = some d ∧
      (∀ y ∈ rows, y.denominationCcy = some ccy → y.daysToMaturity = some d →
        offerRate y ≤ offerRate x) ∧
      ∃ l1 l2,
        (rows.filter (fun y => y.denominationCcy == some ccy)).filter
            (fun y => y.daysToMaturity == some d) = l1 ++ x :: l2 ∧
          ∀ y ∈ l1, offerRate y < offerRate x := by
  have hfold : bestOffersByDays rows ccy =
      (rows.filter (fun y => y.denominationCcy == some ccy)).foldl bestStep [] := rfl
  rw [hfold] at hmem
  rcases mem_foldl_bestStep hmem with hnil | ⟨hday, h1, h2, hF⟩
  · cases hnil
  have hccy : x.denominationCcy = some ccy := by
    have := List.of_mem_filter hF
    simpa using this
  have hnd : (((rows.filter (fun y => y.denominationCcy == some ccy)).foldl
      bestStep []).map Prod.fst).Nodup :=
    keys_nodup_foldl_bestStep (by simp)
  have hlook := lookupBest_of_mem hnd hmem
  rw [lookupBest_foldl _ _ _ h1 h2] at hlook
  have hrun : runBucket none
      ((rows.filter (fun y => y.denominationCcy == some ccy)).filter
        (fun y => y.daysToMaturity == some d)) = some x := hlook
  rcases runBucket_spec hrun with ⟨ha, _⟩ | ⟨l1, l2, hsplit, _, hl1, hl2⟩
  · cases ha
  refine ⟨hccy, hday, ?_, l1, l2, hsplit, hl1⟩
  intro y hy hyccy hyday
  have hymem : y ∈ (rows.filter (fun y => y.denominationCcy == some ccy)).filter
      (fun y => y.daysToMaturity == some d) := by
    apply List.mem_filter.mpr
    refine ⟨List.mem_filter.mpr ⟨hy, by simp [hyccy]⟩, by simp [hyday]⟩
  rw [hsplit] at hymem
  rcases List.mem_append.mp hymem with hyl | hyr
  · exact le_of_lt (hl1 y hyl)
  · rcases List.mem_cons.mp hyr with rfl | hyr
    · exact le_refl _
    · exact hl2 y hyr

/-- Witness for C4 at the spec's day-bucket scenario: two ARS offers for
bucket 7 with rates 30 and 35; the 35-rate offer is the stored entry. -/
theorem bestOffersByDays_entry_is_first_max_witness :
    offerRate35.denominationCcy = some "ARS" ∧ offerRate35.daysToMaturity = some 7 ∧
      (∀ y ∈ [offerRate30, offerRate35], y.denominationCcy = some "ARS" →
        y.daysToMaturity = some 7 → offerRate y ≤ offerRate offerRate35) ∧
      ∃ l1 l2,
        (([offerRate30, offerRate35].filter
            (fun y => y.denominationCcy == some "ARS")).filter
            (fun y => y.daysToMaturity == some 7)) = l1 ++ offerRate35 :: l2 ∧
          ∀ y ∈ l1, offerRate y < offerRate offerRate35 :=
  bestOffersByDays_entry_is_first_max [offerRate30, offerRate35] "ARS" 7 offerRate35
    (by
      have : bestOffersByDays [offerRate30, offerRate35] "ARS" = [(7, offerRate35)] := by
        norm_num [bestOffersByDays, bestStep, insertBest, offerRate30, offerRate35, offerRate]
      rw [this]
      simp)

/-- C3 (amended): every entry of the best-offer map has its bucket in the
range `[1, 30]`, equal to the stored offer's `daysToMaturity` and drawn from
the day counts present in the feed (offers with a missing day count or one
outside the range are excluded — but an in-range *non-integer* day count is
kept under its own bucket), and bucket keys are pairwise distinct, so the map
holds at most one entry per distinct day count present in the feed. -/
theorem bestOffersByDays_range_and_distinct (rows : List BymaCaucionRow) (ccy : String) :
    (∀ p ∈ bestOffersByDays rows ccy,
        (1 ≤ p.1 ∧ p.1 ≤ 30) ∧ p.2.daysToMaturity = some p.1 ∧
          p.1 ∈ rows.filterMap (fun y => y.daysToMaturity)) ∧
      ((bestOffersByDays rows ccy).map Prod.fst).Nodup := by
  constructor
  · intro p hp
    rcases mem_foldl_bestStep hp with hnil | ⟨hday, h1, h2, hF⟩
    · cases hnil
    have hrows : p.2 ∈ rows := List.mem_of_mem_filter hF
    exact ⟨⟨h1, h2⟩, hday, List.mem_filterMap.mpr ⟨p.2, hrows, hday⟩⟩
  · exact keys_nodup_foldl_bestStep (by simp)

/-- C3 counterexample: a single ARS offer with the non-integer day count
`3/2` is *not* excluded — `bestOffersByDays` keeps it under bucket `3/2` —
refuting the claim that every offer with a non-integer `daysToMaturity` is
discarded. -/
theorem bestOffersByDays_keeps_noninteger_days_cex :
    bestOffersByDays [nonIntOffer] "ARS" = [(3/2, nonIntOffer)] ∧
      ¬ ∃ n : ℤ, ((n : ℚ) = 3/2) := by
  constructor
  · simp [bestOffersByDays, bestStep, insertBest, nonIntOffer]
    norm_num
  · rintro ⟨n, hn⟩
    have h2 : ((2 * n : ℤ) : ℚ) = 3 := by
      push_cast [hn]
      ring
    have h3 : (2 * n : ℤ) = 3 := by exact_mod_cast h2
    omega

theorem replaceFirstComma_counts (l : List Char) :
    (l.count ',' = 0 ∧ replaceFirstComma l = l) ∨
      (1 ≤ l.count ',' ∧ (replaceFirstComma l).count ',' = l.count ',' - 1 ∧
        (replaceFirstComma l).count '.' = l.count '.' + 1) := by
  induction l with
  | nil => left; exact ⟨rfl, rfl⟩
  | cons c cs ih =>
    by_cases hc : c = ','
    · subst hc
      right
      refine ⟨by simp [List.count_cons], ?_, ?_⟩
      · simp only [replaceFirstComma, if_pos rfl]
        simp [List.count_cons]
      · simp only [replaceFirstComma, if_pos rfl]
        simp [List.count_cons]
    · rcases ih with ⟨h0, he⟩ | ⟨h1, hcm, hdt⟩
      · left
        constructor
        · simp [List.count_cons, h0, hc]
        · simp only [replaceFirstComma, if_neg hc, he]
      · right
        refine ⟨?_, ?_, ?_⟩
        · simp only [List.count_cons]
          omega
        · simp only [replaceFirstComma, if_neg hc, List.count_cons, hcm]
          have : (c == ',') = false := by simp [hc]
          simp only [this]
          omega
        · simp only [replaceFirstComma, if_neg hc, List.count_cons, hdt]
          omega

theorem jsNumberOfCleaned_none_of_sep {l : List Char}
    (h : l.count ',' ≠ 0 ∨ 2 ≤ l.count '.') : jsNumberOfCleaned l = none := by
  by_cases hc : l.count ',' ≠ 0
  · simp only [jsNumberOfCleaned, if_pos hc]
  · have hd : 2 ≤ l.count '.' := by
      rcases h with h | h
      · exact absurd h hc
      · exact h
    simp only [jsNumberOfCleaned, if_neg hc, if_pos hd]

/-- C9: when the cleaned form of the input (digits, `.` and `,` only) still
holds two or more separator characters in total, `parseLocaleNumber`
returns `null`: the first comma becomes a dot, after which either a comma
remains or two dots remain, and neither is a valid numeric literal. -/
theorem parseLocaleNumber_rejects_two_separators (raw : String)
    (h : 2 ≤ (raw.data.filter isLocaleNumChar).count ',' +
        (raw.data.filter isLocaleNumChar).count '.') :
    parseLocaleNumber raw = none := by
  unfold parseLocaleNumber
  generalize hg : raw.data.filter isLocaleNumChar = l at h ⊢
  rcases replaceFirstComma_counts l with ⟨h0, he⟩ | ⟨h1, hcm, hdt⟩
  · have hdots : 2 ≤ l.count '.' := by omega
    rw [he, jsNumberOfCleaned_none_of_sep (Or.inr hdots)]
    rfl
  · by_cases h2 : 2 ≤ l.count ','
    · have hcm' : (replaceFirstComma l).count ',' ≠ 0 := by omega
      rw [jsNumberOfCleaned_none_of_sep (Or.inl hcm')]
      rfl
    · have hdt' : 2 ≤ (replaceFirstComma l).count '.' := by omega
      rw [jsNumberOfCleaned_none_of_sep (Or.inr hdt')]
      rfl

/-- Witness for C9 at the multi-comma input `"1,234,56"`. -/
theorem parseLocaleNumber_rejects_two_separators_witness :
    2 ≤ ("1,234,56".data.filter isLocaleNumChar).count ',' +
        ("1,234,56".data.filter isLocaleNumChar).count '.' ∧
      parseLocaleNumber "1,234,56" = none :=
  ⟨by decide, parseLocaleNumber_rejects_two_separators "1,234,56" (by decide)⟩

theorem findSome?_over_map {α β γ : Type} (f : α → β) (F : β → Option γ) (l : List α) :
    (l.map f).findSome? F = l.findSome? (fun a => F (f a)) := by
  induction l with
  | nil => rfl
  | cons a l ih =>
    simp only [List.map_cons, List.findSome?_cons]
    cases F (f a) <;> simp [ih]

theorem find?_over_norm (row : List (String × String)) (p : String → Bool) :
    ((row.map fun kv => (kv, normalizeKey kv.1)).find? (fun x => p x.2)).map
        (fun x => x.1.2) =
      (row.find? (fun kv => p (normalizeKey kv.1))).map (fun kv => kv.2) := by
  induction row with
  | nil => rfl
  | cons kv row ih =>
    rw [List.map_cons]
    cases h : p (normalizeKey kv.1)
    · rw [List.find?_cons_of_neg, List.find?_cons_of_neg, ih]
      · simpa using h
      · simpa using h
    · rw [List.find?_cons_of_pos, List.find?_cons_of_pos]
      · rfl
      · simpa using h
      · simpa using h

/-- C6: field resolution returns the exact-match pass result whenever one
exists (even when an earlier candidate has only a fuzzy match), falls back to
the fuzzy containment pass only when no candidate matches any row key
exactly, and returns the empty string when neither pass matches. -/
theorem pickField_exact_then_fuzzy_then_empty (row : List (String × String))
    (wanted : List String) :
    pickField row wanted =
      (exactResolve row wanted).getD ((fuzzyResolve row wanted).getD "") := by
  unfold pickField exactResolve fuzzyResolve
  dsimp only
  rw [findSome?_over_map, findSome?_over_map]
  have he : ∀ w : String,
      (((row.map fun kv => (kv, normalizeKey kv.1)).find?
          (fun x => x.2 == normalizeKey w)).map (fun x => x.1.2)) =
        (row.find? (fun kv => normalizeKey kv.1 == normalizeKey w)).map
          (fun kv => kv.2) := by
    intro w
    exact find?_over_norm row (fun s => s == normalizeKey w)
  have hf : ∀ w : String,
      (((row.map fun kv => (kv, normalizeKey kv.1)).find?
          (fun x => strIncludes x.2 (normalizeKey w) ||
            strIncludes (normalizeKey w) x.2)).map (fun x => x.1.2)) =
        (row.find? (fun kv => strIncludes (normalizeKey kv.1) (normalizeKey w) ||
          strIncludes (normalizeKey w) (normalizeKey kv.1))).map (fun kv => kv.2) := by
    intro w
    exact find?_over_norm row
      (fun s => strIncludes s (normalizeKey w) || strIncludes (normalizeKey w) s)
  simp only [he, hf]
  cases hE : wanted.findSome? (fun w =>
      (row.find? (fun kv => normalizeKey kv.1 == normalizeKey w)).map
        (fun kv => kv.2)) with
  | some v => simp
  | none =>
    cases hF : wanted.findSome? (fun w =>
        (row.find? (fun kv => strIncludes (normalizeKey kv.1) (normalizeKey w) ||
          strIncludes (normalizeKey w) (normalizeKey kv.1))).map
          (fun kv => kv.2)) with
    | some v => simp
    | none => simp

theorem minProfitPct_eq_spec (days : ℚ) :
    minProfitPctForDays days = minProfitPctSpec days := by
  unfold minProfitPctForDays minProfitPctSpec MIN_PROFIT_TABLE
  simp only [minProfitLoop, List.headI]
  split_ifs <;> first | rfl | linarith

theorem minProfitPctSpec_staircase (d : ℚ) :
    minProfitPctSpec d =
      4/10 + (if 14 ≤ d then 1/10 else 0) + (if 30 ≤ d then 2/10 else 0) +
        (if 60 ≤ d then 5/10 else 0) + (if 90 ≤ d then 6/10 else 0) +
        (if 180 ≤ d then 7/10 else 0) + (if 365 ≤ d then 15/10 else 0) := by
  unfold minProfitPctSpec
  split_ifs <;> linarith

theorem indicator_le_indicator {c d1 d2 v : ℚ} (h : d1 ≤ d2) (hv : 0 ≤ v) :
    (if c ≤ d1 then v else 0) ≤ (if c ≤ d2 then v else 0) := by
  split_ifs with h1 h2
  · exact le_refl v
  · exact absurd (le_trans h1 h) h2
  · exact hv
  · exact le_refl 0

theorem minProfitPctSpec_mono {d1 d2 : ℚ} (h : d1 ≤ d2) :
    minProfitPctSpec d1 ≤ minProfitPctSpec d2 := by
  rw [minProfitPctSpec_staircase, minProfitPctSpec_staircase]
  have h14 := indicator_le_indicator (c := 14) (v := 1/10) h (by norm_num)
  have h30 := indicator_le_indicator (c := 30) (v := 2/10) h (by norm_num)
  have h60 := indicator_le_indicator (c := 60) (v := 5/10) h (by norm_num)
  have h90 := indicator_le_indicator (c := 90) (v := 6/10) h (by norm_num)
  have h180 := indicator_le_indicator (c := 180) (v := 7/10) h (by norm_num)
  have h365 := indicator_le_indicator (c := 365) (v := 15/10) h (by norm_num)
  linarith

/-- C10: the auto-derived hurdle equals `round(max(0, capital) * pct(days) / 100)`
where `pct` is the largest-tier percentage of the table not exceeding `days`
(0.4 below the first tier, including `days ≤ 0`), and for fixed capital it is
non-decreasing in the day horizon. -/
theorem calcAutoExtraMinProfit_spec_and_mono (capital days days2 : ℚ)
    (h : days ≤ days2) :
    calcAutoExtraMinProfit capital days =
      jsRound (max 0 capital * minProfitPctSpec days / 100) ∧
    calcAutoExtraMinProfit capital days ≤ calcAutoExtraMinProfit capital days2 := by
  constructor
  · unfold calcAutoExtraMinProfit
    rw [minProfitPct_eq_spec]
    congr 1
    ring
  · unfold calcAutoExtraMinProfit jsRound
    apply Int.floor_le_floor
    have hcap : (0:ℚ) ≤ max 0 capital := le_max_left 0 capital
    have hmono := minProfitPctSpec_mono h
    rw [minProfitPct_eq_spec, minProfitPct_eq_spec]
    have hmul : max 0 capital * (minProfitPctSpec days / 100) ≤
        max 0 capital * (minProfitPctSpec days2 / 100) := by
      apply mul_le_mul_of_nonneg_left _ hcap
      linarith
    linarith

/-- Witness for C10 at capital 1,000,000 and horizons 14 ≤ 30 days. -/
theorem calcAutoExtraMinProfit_spec_and_mono_witness :
    calcAutoExtraMinProfit 1000000 14 =
      jsRound (max 0 1000000 * minProfitPctSpec 14 / 100) ∧
    calcAutoExtraMinProfit 1000000 14 ≤ calcAutoExtraMinProfit 1000000 30 :=
  calcAutoExtraMinProfit_spec_and_mono 1000000 14 30 (by norm_num)

/-- C7: inside the LECAP sizing block, with non-negative capital and a
positive fee-adjusted price, `qty` is the floor of `capital / priceWithFee`,
`invested = qty * priceWithFee` never exceeds the capital, and the leftover
equals `capital - invested` and is never negative. -/
theorem lecapSizing_floor_bounds (capital p : ℚ) (hc : 0 ≤ capital) (hp : 0 < p) :
    lecapQty capital (some p) = ⌊capital / p⌋ ∧
    lecapInvested capital (some p) = (lecapQty capital (some p) : ℚ) * p ∧
    lecapInvested capital (some p) ≤ capital ∧
    lecapLeftover capital (some p) = capital - lecapInvested capital (some p) ∧
    0 ≤ lecapLeftover capital (some p) := by
  have hq : lecapQty capital (some p) = ⌊capital / p⌋ := by
    simp [lecapQty, hp]
  have hq0 : 0 ≤ ⌊capital / p⌋ := Int.floor_nonneg.mpr (div_nonneg hc hp.le)
  have hinv : lecapInvested capital (some p) = (⌊capital / p⌋ : ℚ) * p := by
    unfold lecapInvested
    rw [hq]
    by_cases h0 : (0:ℤ) < ⌊capital / p⌋
    · rw [if_pos h0]
    · rw [if_neg h0]
      have : ⌊capital / p⌋ = 0 := le_antisymm (not_lt.mp h0) hq0
      rw [this]
      norm_num
  have hle : lecapInvested capital (some p) ≤ capital := by
    rw [hinv]
    have hfl : ((⌊capital / p⌋ : ℚ)) ≤ capital / p := Int.floor_le _
    calc (⌊capital / p⌋ : ℚ) * p ≤ (capital / p) * p :=
          mul_le_mul_of_nonneg_right hfl hp.le
      _ = capital := div_mul_cancel₀ capital (ne_of_gt hp)
  have hleft : lecapLeftover capital (some p) =
      capital - lecapInvested capital (some p) := by
    unfold lecapLeftover
    exact max_eq_right (by linarith)
  refine ⟨hq, by rw [hinv, hq], hle, hleft, ?_⟩
  rw [hleft]
  linarith

/-- Witness for C7: capital 1050, fee-adjusted price 100 — 10 units bought,
1000 invested, 50 left over. -/
theorem lecapSizing_floor_bounds_witness :
    lecapQty 1050 (some 100) = ⌊(1050:ℚ) / 100⌋ ∧
    lecapInvested 1050 (some 100) = (lecapQty 1050 (some 100) : ℚ) * 100 ∧
    lecapInvested 1050 (some 100) ≤ 1050 ∧
    lecapLeftover 1050 (some 100) = 1050 - lecapInvested 1050 (some 100) ∧
    0 ≤ lecapLeftover 1050 (some 100) :=
  lecapSizing_floor_bounds 1050 100 (by norm_num) (by norm_num)

/-- C1 (amended): when both the caución and the best eligible LECAP clear the
(clamped) minimum-extra-profit hurdle, the code recommends the LECAP only when
its horizon-adjusted gain is *strictly* higher than the caución net gain, and
recommends the caución otherwise — in particular the caución, not the bond,
wins exact ties. -/
theorem recommendation_both_clear_strict_tiebreak
    (mmGain caucGain extraMinProfit g : ℚ) (bestL : LecapCandidate)
    (hg : bestL.horizonGainARS = some g)
    (hc : clampNonNeg extraMinProfit ≤ caucGain - mmGain)
    (hl : clampNonNeg extraMinProfit ≤ g - mmGain) :
    (recommendation mmGain caucGain (some bestL) extraMinProfit).type =
      if caucGain < g then RecType.LECAP else RecType.CAUCION := by
  unfold recommendation
  simp only [Option.some_bind, hg, Option.map_some, decide_eq_true hc, decide_eq_true hl]
  by_cases hlt : caucGain < g
  · simp [hlt, not_lt.mpr hl, not_lt.mpr hc]
  · simp [hlt, not_lt.mpr hl, not_lt.mpr hc]

/-- Witness for C1's amended theorem: the bond's gain 20 strictly beats the
caución gain 10 and the bond is recommended. -/
theorem recommendation_both_clear_strict_tiebreak_witness :
    (recommendation 0 10 (some strictCandidate) 0).type =
      if (10:ℚ) < 20 then RecType.LECAP else RecType.CAUCION :=
  recommendation_both_clear_strict_tiebreak 0 10 0 20 strictCandidate rfl
    (by norm_num [clampNonNeg]) (by norm_num [clampNonNeg])

/-- C1 counterexample: `mmGain = 0`, `caucGain = 10`, best LECAP gain `10`,
hurdle `0` — both instruments clear the hurdle and the two projected gains are
exactly equal, yet the code recommends the caución, not the bond. -/
theorem recommendation_tie_goes_to_caucion_cex :
    (recommendation 0 10 (some tieCandidate) 0).type = RecType.CAUCION ∧
      RecType.CAUCION ≠ RecType.LECAP ∧
      (recommendation 0 10 (some tieCandidate) 0).caucExtra = 10 ∧
      (recommendation 0 10 (some tieCandidate) 0).lecExtra = some 10 := by
  refine ⟨?_, by decide, ?_, ?_⟩ <;>
    norm_num [recommendation, tieCandidate, clampNonNeg]

end Horizon
